import Mathlib

/-!
Verification development for the moelist archive classification and
metadata-extraction pipeline (src/libs/moelist/index.ts).

The TypeScript source is shallowly embedded below:
* strings are Lean `String`s; the JavaScript single-character primitives
  `split(sep)`, `startsWith(p)` and `endsWith(p)` are modelled on the
  underlying character list (`splitOnChar`, `strStartsWith`, `strEndsWith`),
  which agrees with the JavaScript semantics for the separators used by the
  source (`'/'` and `'.'`);
* JavaScript `Set` (insertion ordered) is modelled as a duplicate-free list
  with `setAdd`; JavaScript `Map` (insertion ordered) as an association list
  (`addToFolder`, `addDepth`);
* the external collaborators (jszip, node-unrar-js, FileReader) are black
  boxes: `readZipfile` takes the list of internal zip paths the zip decoder
  would return, `readRarFile` takes the list of file headers the rar decoder
  would return (`flags.directory` is flattened into the `directory` field);
* JavaScript numbers are `Nat` for byte counts; the floating point division
  `size / 1024 / 1024` of `getSizeType` is modelled over `ℚ`, which is exact
  here because division by a power of two is exact in binary floating point
  for the integer sizes involved.
-/

namespace Moelist

/-- The version marker constant of the source. -/
def version : String := "moelist v0.0.1"

/-- `ArchiveType` union of the source. -/
inductive ArchiveType where
  | zip
  | rar
  | folder
deriving DecidableEq, Repr

/-- A raw input file entry (`FileWithPath` of mantine dropzone): base name,
byte size, and optional full relative path. -/
structure FileWithPath where
  name : String
  size : Nat
  path : Option String
deriving DecidableEq, Repr

/-- The `Archive` record of the source.  The source marks `files` optional but
always constructs it, so it is a plain list here. -/
structure Archive where
  name : String
  size : Nat
  type : ArchiveType
  files : List FileWithPath
deriving DecidableEq, Repr

/-- The `ArchiveInfo` record of the source (without the unused optional
`files` field). -/
structure ArchiveInfo where
  name : String
  size : Nat
  exts : List String
  fileCount : Nat
  folderCount : Nat
deriving DecidableEq, Repr

/-- A rar file header as returned by the rar decoding collaborator:
`name` plus the `flags.directory` boolean. -/
structure RarFileHeader where
  name : String
  directory : Bool
deriving DecidableEq, Repr

/-! ### String primitives (JavaScript semantics on character lists) -/

/-- JavaScript `String.prototype.split` with a single-character separator,
on character lists: `"".split(c) = [""]`, separators at the ends produce
empty fragments. -/
def splitOnChar (c : Char) : List Char → List (List Char)
  | [] => [[]]
  | x :: xs =>
    if x = c then [] :: splitOnChar c xs
    else
      match splitOnChar c xs with
      | [] => [[x]]
      | h :: t => (x :: h) :: t

/-- JavaScript `s.split(sep)` for a single-character `sep`. -/
def splitOn (s : String) (sep : Char) : List String :=
  (splitOnChar sep s.data).map String.mk

/-- JavaScript `s.startsWith(p)`. -/
def strStartsWith (s p : String) : Bool :=
  p.data.isPrefixOf s.data

/-- JavaScript `s.endsWith(p)`. -/
def strEndsWith (s p : String) : Bool :=
  p.data.isSuffixOf s.data

/-- JavaScript `s.split('.').pop()`: the last fragment ("" only when the
string ends in `'.'` or is empty). -/
def popExt (s : String) : String :=
  (splitOn s '.').getLastD ""

/-! ### Insertion-ordered set and maps -/

/-- JavaScript `Set.prototype.add`: append if not already present. -/
def setAdd (l : List String) (x : String) : List String :=
  if x ∈ l then l else l ++ [x]

/-- The extension-recording step shared verbatim by all three readers:
`const ext = name.split('.').pop(); if (ext) extensions.add(ext);`. -/
def addExt (exts : List String) (name : String) : List String :=
  if popExt name ≠ "" then setAdd exts (popExt name) else exts

/-- `folderTree.get(depth).add(name)` preceded by the `has`/`set` dance of
`readFolder`, on the insertion-ordered association list modelling the
JavaScript `Map<number, Set<String>>`. -/
def addDepth : List (Nat × List String) → Nat → String → List (Nat × List String)
  | [], d, n => [(d, [n])]
  | kv :: rest, d, n =>
    if kv.1 = d then (kv.1, setAdd kv.2 n) :: rest
    else kv :: addDepth rest d n

/-- `folders.get(folder).push(file)` preceded by the `has`/`set` dance of
`preprocess`, on the insertion-ordered association list modelling the
JavaScript `Map<string, FileWithPath[]>`. -/
def addToFolder : List (String × List FileWithPath) → String → FileWithPath →
    List (String × List FileWithPath)
  | [], k, f => [(k, [f])]
  | kv :: rest, k, f =>
    if kv.1 = k then (kv.1, kv.2 ++ [f]) :: rest
    else kv :: addToFolder rest k f

/-! ### MetadataExtractor: the three reading strategies -/

/-- Loop body of `readZipfile` over one internal zip path; the accumulator is
`(fileCount, folderCount, extensions)`. -/
def zipStep (st : Nat × Nat × List String) (path : String) : Nat × Nat × List String :=
  if strEndsWith path "/" then (st.1, st.2.1 + 1, st.2.2)
  else (st.1 + 1, st.2.1, addExt st.2.2 path)

/-- `readZipfile`, parametrised by the internal path list the zip decoding
collaborator returns for the archive's bytes. -/
def readZipfile (a : Archive) (paths : List String) : ArchiveInfo :=
  { name := a.name
    size := a.size
    exts := (paths.foldl zipStep (0, 0, [])).2.2
    fileCount := (paths.foldl zipStep (0, 0, [])).1
    folderCount := (paths.foldl zipStep (0, 0, [])).2.1 }

/-- Loop body of `readRarFile` over one rar file header. -/
def rarStep (st : Nat × Nat × List String) (hd : RarFileHeader) : Nat × Nat × List String :=
  if hd.directory then (st.1, st.2.1 + 1, st.2.2)
  else (st.1 + 1, st.2.1, addExt st.2.2 hd.name)

/-- `readRarFile`, parametrised by the file header list the rar decoding
collaborator returns for the archive's bytes. -/
def readRarFile (a : Archive) (headers : List RarFileHeader) : ArchiveInfo :=
  { name := a.name
    size := a.size
    exts := (headers.foldl rarStep (0, 0, [])).2.2
    fileCount := (headers.foldl rarStep (0, 0, [])).1
    folderCount := (headers.foldl rarStep (0, 0, [])).2.1 }

/-- `file.path!.split('/')`: the path segments of a member (the source's
non-null assertion is modelled by defaulting an absent path to `""`, whose
split is `[""]` and so contributes no sub-folders). -/
def memberPaths (file : FileWithPath) : List String :=
  splitOn (file.path.getD "") '/'

/-- The folder-tree update of `readFolder` for one member: when the path has
more than 3 segments, register each intermediate segment (indices 2 up to but
excluding the last) into the per-depth name set. -/
def treeUpdate (t : List (Nat × List String)) (file : FileWithPath) :
    List (Nat × List String) :=
  if (memberPaths file).length > 3 then
    (List.range' 2 ((memberPaths file).length - 3)).foldl
      (fun t d => addDepth t d ((memberPaths file).getD d "")) t
  else t

/-- Loop body of `readFolder` over one member; the accumulator is
`(extensions, folderTree)`. -/
def folderStep (st : List String × List (Nat × List String)) (file : FileWithPath) :
    List String × List (Nat × List String) :=
  (addExt st.1 file.name, treeUpdate st.2 file)

/-- `readFolder`: extensions from each member's `name`, `fileCount` the member
count, `folderCount` the sum of the per-depth set sizes. -/
def readFolder (a : Archive) : ArchiveInfo :=
  { name := a.name
    size := a.size
    exts := (a.files.foldl folderStep ([], [])).1
    fileCount := a.files.length
    folderCount := (((a.files.foldl folderStep ([], [])).2).map (fun kv => kv.2.length)).sum }

/-! ### ArchiveGrouper: preprocess -/

/-- First loop of `preprocess`: `.zip` names become zip archives, `.rar` names
rar archives, everything else is pushed to the residual bucket.  The
accumulator is `(archives, others)`. -/
def classifyStep (st : List Archive × List FileWithPath) (file : FileWithPath) :
    List Archive × List FileWithPath :=
  if strEndsWith file.name ".zip" then
    (st.1 ++ [{ name := file.name, size := file.size, type := ArchiveType.zip,
                files := [file] }], st.2)
  else if strEndsWith file.name ".rar" then
    (st.1 ++ [{ name := file.name, size := file.size, type := ArchiveType.rar,
                files := [file] }], st.2)
  else (st.1, st.2 ++ [file])

/-- `!file.path || !file.path.startsWith('/')` is the skip condition of the
second loop of `preprocess`; this is its complement (a JavaScript empty-string
path is falsy, and also fails `startsWith('/')`, so both readings agree). -/
def hasValidPath (f : FileWithPath) : Bool :=
  match f.path with
  | some p => strStartsWith p "/"
  | none => false

/-- `file.path.split('/')[1]`: the top-level folder name of a member. -/
def folderKey (f : FileWithPath) : String :=
  (memberPaths f).getD 1 ""

/-- Second loop body of `preprocess`: group a residual entry by its top-level
folder name, skipping entries without a usable path. -/
def groupStep (m : List (String × List FileWithPath)) (file : FileWithPath) :
    List (String × List FileWithPath) :=
  if hasValidPath file then addToFolder m (folderKey file) file else m

/-- The grouped residual bucket of `preprocess`. -/
def groupFolders (l : List FileWithPath) : List (String × List FileWithPath) :=
  l.foldl groupStep []

/-- Third loop of `preprocess`: one folder archive per map entry, sized by the
sum of its members' sizes. -/
def mkFolderArchive (kv : String × List FileWithPath) : Archive :=
  { name := kv.1
    size := kv.2.foldl (fun sum f => sum + f.size) 0
    type := ArchiveType.folder
    files := kv.2 }

/-- `ArchiveInfoReader.preprocess`: zip/rar archives in input order, then one
folder archive per distinct top-level folder name in first-seen order. -/
def preprocess (files : List FileWithPath) : List Archive :=
  (files.foldl classifyStep ([], [])).1
    ++ (groupFolders (files.foldl classifyStep ([], [])).2).map mkFolderArchive

/-! ### SizeClassifier -/

/-- The `SizeType` string union of the source, as an inductive with a label. -/
inductive SizeType where
  | XXS
  | XS
  | S
  | M
  | L
  | XL
  | XXL
  | XXXL
deriving DecidableEq, Repr

/-- The ordinal position of a tier in `XXS < XS < S < M < L < XL < XXL < XXXL`. -/
def SizeType.toNat : SizeType → Nat
  | .XXS => 0
  | .XS => 1
  | .S => 2
  | .M => 3
  | .L => 4
  | .XL => 5
  | .XXL => 6
  | .XXXL => 7

/-- The string literal each tier stands for in the source's string union. -/
def SizeType.label : SizeType → String
  | .XXS => "XXS"
  | .XS => "XS"
  | .S => "S"
  | .M => "M"
  | .L => "L"
  | .XL => "XL"
  | .XXL => "XXL"
  | .XXXL => "XXXL"

/-- `MoelistFormatter.getSizeType`: map a byte count to a tier by dividing by
1024 twice and comparing with ascending exclusive thresholds. -/
def getSizeType (size : Nat) : SizeType :=
  let sizeMB : ℚ := (size : ℚ) / 1024 / 1024
  if sizeMB < 20 then SizeType.XXS
  else if sizeMB < 50 then SizeType.XS
  else if sizeMB < 100 then SizeType.S
  else if sizeMB < 175 then SizeType.M
  else if sizeMB < 300 then SizeType.L
  else if sizeMB < 500 then SizeType.XL
  else if sizeMB < 800 then SizeType.XXL
  else SizeType.XXXL

/-! ### ReportRenderer -/

/-- Insert a comma after every three characters of a reversed digit string. -/
def groupRev : List Char → List Char
  | c1 :: c2 :: c3 :: c4 :: rest => c1 :: c2 :: c3 :: ',' :: groupRev (c4 :: rest)
  | l => l

/-- JavaScript `Number.prototype.toLocaleString` for a non-negative integer in
the default `en` locale: decimal digits with thousands grouping by commas. -/
def toLocaleString (n : Nat) : String :=
  String.mk (groupRev (Nat.repr n).data.reverse).reverse

/-- JavaScript `s.padStart(n)` (spaces). -/
def padStart (s : String) (n : Nat) : String :=
  String.mk (List.replicate (n - s.length) ' ') ++ s

/-- JavaScript `s.padEnd(n)` (spaces). -/
def padEnd (s : String) (n : Nat) : String :=
  s ++ String.mk (List.replicate (n - s.length) ' ')

/-- Header row of the preview format. -/
def previewHeader : String :=
  "        Size Type Summary                  Extensions   Name"

/-- Divider row of the preview format. -/
def previewDivider : String :=
  "------------ ---- ------------------------ ------------ ------------------------"

/-- One data row of the preview format. -/
def previewLine (info : ArchiveInfo) : String :=
  padStart (toLocaleString info.size) 12 ++ " "
    ++ padStart (getSizeType info.size).label 4 ++ " "
    ++ padEnd (toString info.fileCount ++ " files, " ++ toString info.folderCount ++ " folders") 24 ++ " "
    ++ padEnd (String.intercalate ", " info.exts) 12 ++ " "
    ++ info.name

/-- The final totals row of the preview format. -/
def totalsLine (totalSize totalFiles totalFolders : Nat) : String :=
  padStart (toLocaleString totalSize) 12 ++ "      "
    ++ toString totalFiles ++ " files, " ++ toString totalFolders ++ " folders"

/-- The loop of `getPreviewStyle`: accumulate rendered rows and the three
running totals `(lines, totalSize, totalFiles, totalFolders)`. -/
def previewFold (infos : List ArchiveInfo) : List String × Nat × Nat × Nat :=
  infos.foldl
    (fun st info =>
      (st.1 ++ [previewLine info], st.2.1 + info.size, st.2.2.1 + info.fileCount,
        st.2.2.2 + info.folderCount))
    ([previewHeader, previewDivider], 0, 0, 0)

/-- `MoelistFormatter.getPreviewStyle`. -/
def getPreviewStyle (infos : List ArchiveInfo) : String :=
  if infos.length = 0 then ""
  else
    String.intercalate "\n"
      ((previewFold infos).1
        ++ [previewDivider,
            totalsLine (previewFold infos).2.1 (previewFold infos).2.2.1
              (previewFold infos).2.2.2])

/-- Opening markup of the quoted/code format. -/
def codeQuoteStart : String := "[quote][font=courier new, courier, monospace]"

/-- Closing markup of the quoted/code format. -/
def codeQuoteEnd : String := "[/font][/quote]"

/-- `MoelistFormatter.getCodeStyle`: the preview format wrapped in quote and
monospace-font markup after the version line. -/
def getCodeStyle (infos : List ArchiveInfo) : String :=
  if infos.length = 0 then ""
  else String.intercalate "\n" [codeQuoteStart, version, getPreviewStyle infos, codeQuoteEnd]

/-- Table header markup row (localized column titles). -/
def tableStart : String :=
  "[table=100%][tr]"
    ++ "[td]档案[/td]"
    ++ "[td][align=right]体积[/align][/td]"
    ++ "[td][align=right]体积类型[/align][/td]"
    ++ "[td][align=right]文件数[/align][/td]"
    ++ "[td][align=right]文件夹数[/align][/td]"
    ++ "[td]扩展名[/td][/tr]"

/-- One data row of the table format. -/
def tableLine (info : ArchiveInfo) : String :=
  "[tr][td]" ++ info.name ++ "[/td]"
    ++ "[td][align=right]" ++ toLocaleString info.size ++ "[/align][/td]"
    ++ "[td][align=right]" ++ (getSizeType info.size).label ++ "[/align][/td]"
    ++ "[td][align=right]" ++ toString info.fileCount ++ "[/align][/td]"
    ++ "[td][align=right]" ++ toString info.folderCount ++ "[/align][/td]"
    ++ "[td]" ++ String.intercalate ", " info.exts ++ "[/td][/tr]"

/-- The final totals row of the table format, including the table closer. -/
def tableCounter (totalSize totalFiles totalFolders : Nat) : String :=
  "[tr][td]总计[/td]"
    ++ "[td][align=right]" ++ toLocaleString totalSize ++ "[/align][/td]"
    ++ "[td][/td]"
    ++ "[td][align=right]" ++ toString totalFiles ++ "[/align][/td]"
    ++ "[td][align=right]" ++ toString totalFolders ++ "[/align][/td]"
    ++ "[td][/td][/tr]"
    ++ "[/table]"

/-- The loop of `getTableStyle`, same accumulator shape as `previewFold`. -/
def tableFold (infos : List ArchiveInfo) : List String × Nat × Nat × Nat :=
  infos.foldl
    (fun st info =>
      (st.1 ++ [tableLine info], st.2.1 + info.size, st.2.2.1 + info.fileCount,
        st.2.2.2 + info.folderCount))
    (["[quote]", version, tableStart], 0, 0, 0)

/-- `MoelistFormatter.getTableStyle`. -/
def getTableStyle (infos : List ArchiveInfo) : String :=
  if infos.length = 0 then ""
  else
    String.intercalate "\n"
      ((tableFold infos).1
        ++ [tableCounter (tableFold infos).2.1 (tableFold infos).2.2.1 (tableFold infos).2.2.2,
            "[/quote]"])

/-! ### Helper lemmas: string splitting and the extension set -/

/-- Splitting on a character that does not occur returns the whole list. -/
theorem splitOnChar_of_not_mem {c : Char} {l : List Char} (h : c ∉ l) :
    splitOnChar c l = [l] := by
  induction l with
  | nil => rfl
  | cons x xs ih =>
    rw [List.mem_cons, not_or] at h
    rw [splitOnChar, if_neg (fun hx => h.1 hx.symm), ih h.2]

/-- Membership in `setAdd`. -/
theorem mem_setAdd {l : List String} {x y : String} :
    y ∈ setAdd l x ↔ y ∈ l ∨ y = x := by
  unfold setAdd
  split_ifs with h
  · exact ⟨Or.inl, fun hy => hy.elim id (fun hyx => hyx ▸ h)⟩
  · simp

/-- `addExt` never inserts the empty string. -/
theorem empty_not_mem_addExt {exts : List String} (s : String) (h : "" ∉ exts) :
    "" ∉ addExt exts s := by
  unfold addExt
  split_ifs with hne
  · intro hmem
    rcases mem_setAdd.mp hmem with hl | he
    · exact h hl
    · exact hne he.symm
  · exact h

/-! ### Claim theorems (first batch) -/

/-- Claim C1, counterexample: the folder member named `README` contains no
`'.'`, yet extension extraction yields the whole name and `README` is added to
the `exts` set of the produced `ArchiveInfo` — the claim's "nothing is added"
fails on the code. -/
theorem readFolder_noDot_counterexample :
    ('.' ∉ ("README" : String).data) ∧
    (readFolder
        { name := "a", size := 10, type := ArchiveType.folder,
          files := [{ name := "README", size := 10, path := some "/a/README" }] }).exts
      = ["README"] := by
  constructor
  · decide
  · decide

/-- Claim C1, amended: extension extraction (`split('.').pop()` guarded by a
truthiness check) on a member name with no `'.'` yields the entire name, and a
nonempty dotless name is itself added to the extension set; only the empty
name contributes nothing. -/
theorem popExt_noDot (s : String) (h : '.' ∉ s.data) (hs : s ≠ "") :
    popExt s = s ∧ ∀ exts : List String, addExt exts s = setAdd exts s := by
  have hsplit : splitOn s '.' = [s] := by
    unfold splitOn
    rw [splitOnChar_of_not_mem h]
    rfl
  have hpop : popExt s = s := by
    unfold popExt
    rw [hsplit]
    rfl
  refine ⟨hpop, fun exts => ?_⟩
  unfold addExt
  rw [hpop, if_pos hs]

/-- Claim C4: the three-entry example batch groups into exactly one folder
archive named `a` of size 35, whose extraction yields `fileCount = 3`,
`folderCount = 1` and `exts = {txt}`. -/
theorem example_batch_preprocess_readFolder :
    preprocess
        [{ name := "x.txt", size := 10, path := some "/a/x.txt" },
         { name := "y.txt", size := 20, path := some "/a/y.txt" },
         { name := "z.txt", size := 5, path := some "/a/sub/z.txt" }]
      = [{ name := "a", size := 35, type := ArchiveType.folder,
           files := [{ name := "x.txt", size := 10, path := some "/a/x.txt" },
                     { name := "y.txt", size := 20, path := some "/a/y.txt" },
                     { name := "z.txt", size := 5, path := some "/a/sub/z.txt" }] }] ∧
    readFolder
        { name := "a", size := 35, type := ArchiveType.folder,
          files := [{ name := "x.txt", size := 10, path := some "/a/x.txt" },
                    { name := "y.txt", size := 20, path := some "/a/y.txt" },
                    { name := "z.txt", size := 5, path := some "/a/sub/z.txt" }] }
      = { name := "a", size := 35, exts := ["txt"], fileCount := 3, folderCount := 1 } := by
  constructor
  · decide
  · decide

/-- Claim C5: a size of exactly `20 * 1024 * 1024` bytes falls in the higher
tier `XS`, not `XXS` — tier thresholds are exclusive upper bounds. -/
theorem getSizeType_boundary_20MB :
    getSizeType (20 * 1024 * 1024) = SizeType.XS := by
  unfold getSizeType
  norm_num

/-- Claim C8: rendering the empty record list returns the empty string for
each of the three formats. -/
theorem render_empty :
    getPreviewStyle [] = "" ∧ getCodeStyle [] = "" ∧ getTableStyle [] = "" :=
  ⟨rfl, rfl, rfl⟩

set_option maxHeartbeats 1000000 in
/-- Claim C6: `getSizeType` is total — its value is always one of the eight
tiers — and monotone: a strictly smaller byte count never gets a strictly
higher tier in the ordering `XXS < XS < S < M < L < XL < XXL < XXXL`. -/
theorem getSizeType_total_monotone (a b : Nat) (hab : a < b) :
    getSizeType a ∈ [SizeType.XXS, SizeType.XS, SizeType.S, SizeType.M,
      SizeType.L, SizeType.XL, SizeType.XXL, SizeType.XXXL] ∧
    (getSizeType a).toNat ≤ (getSizeType b).toNat := by
  constructor
  · cases h : getSizeType a <;> simp
  · have h1 : ((a : ℚ)) < ((b : ℚ)) := by exact_mod_cast hab
    have hq : (a : ℚ) / 1024 / 1024 < (b : ℚ) / 1024 / 1024 := by gcongr
    unfold getSizeType
    dsimp only
    split_ifs <;> first | (norm_num [SizeType.toNat]; done) | (exfalso; linarith)

/-- Witness for `getSizeType_total_monotone` at the concrete pair `0 < 1`. -/
theorem getSizeType_total_monotone_witness :
    getSizeType 0 ∈ [SizeType.XXS, SizeType.XS, SizeType.S, SizeType.M,
      SizeType.L, SizeType.XL, SizeType.XXL, SizeType.XXXL] ∧
    (getSizeType 0).toNat ≤ (getSizeType 1).toNat :=
  getSizeType_total_monotone 0 1 (by decide)

/-- Witness for `popExt_noDot` at the concrete dotless name `abc`. -/
theorem popExt_noDot_witness :
    popExt "abc" = "abc" ∧ ∀ exts : List String, addExt exts "abc" = setAdd exts "abc" :=
  popExt_noDot "abc" (by decide) (by decide)

/-! ### The extension sets never contain the empty string -/

/-- The zip loop preserves "the extension set has no empty string". -/
theorem empty_not_mem_zipFold (paths : List String) :
    ∀ st : Nat × Nat × List String, "" ∉ st.2.2 → "" ∉ (paths.foldl zipStep st).2.2 := by
  induction paths with
  | nil => exact fun st h => h
  | cons p ps ih =>
    intro st h
    rw [List.foldl_cons]
    refine ih _ ?_
    unfold zipStep
    split_ifs
    · exact h
    · exact empty_not_mem_addExt p h

/-- The rar loop preserves "the extension set has no empty string". -/
theorem empty_not_mem_rarFold (headers : List RarFileHeader) :
    ∀ st : Nat × Nat × List String, "" ∉ st.2.2 → "" ∉ (headers.foldl rarStep st).2.2 := by
  induction headers with
  | nil => exact fun st h => h
  | cons hd hds ih =>
    intro st h
    rw [List.foldl_cons]
    refine ih _ ?_
    unfold rarStep
    split_ifs
    · exact h
    · exact empty_not_mem_addExt hd.name h

/-- The folder loop preserves "the extension set has no empty string". -/
theorem empty_not_mem_folderFold (files : List FileWithPath) :
    ∀ st : List String × List (Nat × List String),
      "" ∉ st.1 → "" ∉ (files.foldl folderStep st).1 := by
  induction files with
  | nil => exact fun st h => h
  | cons f fs ih =>
    intro st h
    rw [List.foldl_cons]
    exact ih _ (empty_not_mem_addExt f.name h)

/-- Claim C10: whatever the archive and whatever the decoding collaborators
return, the `exts` list of the produced `ArchiveInfo` never contains the
empty string (a member name ending in `'.'` contributes no extension, since
the truthiness guard rejects the empty fragment). -/
theorem exts_never_contains_empty (a : Archive) (paths : List String)
    (headers : List RarFileHeader) :
    "" ∉ (readZipfile a paths).exts ∧ "" ∉ (readRarFile a headers).exts ∧
      "" ∉ (readFolder a).exts :=
  ⟨empty_not_mem_zipFold paths (0, 0, []) (by simp),
   empty_not_mem_rarFold headers (0, 0, []) (by simp),
   empty_not_mem_folderFold a.files ([], []) (by simp)⟩

/-! ### Rendering totals -/

/-- The rendering loop shared by the preview and table formats accumulates
exactly the component-wise sums of `size`, `fileCount` and `folderCount`. -/
theorem render_fold_totals (line : ArchiveInfo → String) (infos : List ArchiveInfo) :
    ∀ (ls : List String) (s0 f0 d0 : Nat),
      (infos.foldl
          (fun st info =>
            (st.1 ++ [line info], st.2.1 + info.size, st.2.2.1 + info.fileCount,
              st.2.2.2 + info.folderCount))
          (ls, s0, f0, d0)).2
        = (s0 + (infos.map ArchiveInfo.size).sum,
           f0 + (infos.map ArchiveInfo.fileCount).sum,
           d0 + (infos.map ArchiveInfo.folderCount).sum) := by
  induction infos with
  | nil => intro ls s0 f0 d0; simp
  | cons i rest ih =>
    intro ls s0 f0 d0
    rw [List.foldl_cons, ih]
    simp [Nat.add_assoc]

/-- The running totals of the preview loop are the field sums. -/
theorem previewFold_totals (infos : List ArchiveInfo) :
    (previewFold infos).2
      = ((infos.map ArchiveInfo.size).sum, (infos.map ArchiveInfo.fileCount).sum,
         (infos.map ArchiveInfo.folderCount).sum) := by
  unfold previewFold
  rw [render_fold_totals previewLine]
  simp

/-- The running totals of the table loop are the field sums. -/
theorem tableFold_totals (infos : List ArchiveInfo) :
    (tableFold infos).2
      = ((infos.map ArchiveInfo.size).sum, (infos.map ArchiveInfo.fileCount).sum,
         (infos.map ArchiveInfo.folderCount).sum) := by
  unfold tableFold
  rw [render_fold_totals tableLine]
  simp

/-- Claim C7: for a non-empty record list, each of the three formats ends in a
summary row rendered from exactly the sums of the `size`, `fileCount` and
`folderCount` fields over all records (the quoted/code format wraps the
preview format, final summary row included). -/
theorem render_totals (infos : List ArchiveInfo) (h : infos ≠ []) :
    getPreviewStyle infos
      = String.intercalate "\n"
          ((previewFold infos).1
            ++ [previewDivider,
                totalsLine (infos.map ArchiveInfo.size).sum
                  (infos.map ArchiveInfo.fileCount).sum
                  (infos.map ArchiveInfo.folderCount).sum]) ∧
    getCodeStyle infos
      = String.intercalate "\n" [codeQuoteStart, version, getPreviewStyle infos, codeQuoteEnd] ∧
    getTableStyle infos
      = String.intercalate "\n"
          ((tableFold infos).1
            ++ [tableCounter (infos.map ArchiveInfo.size).sum
                  (infos.map ArchiveInfo.fileCount).sum
                  (infos.map ArchiveInfo.folderCount).sum,
                "[/quote]"]) := by
  have hlen : ¬ infos.length = 0 := by
    simpa [List.length_eq_zero] using h
  refine ⟨?_, ?_, ?_⟩
  · unfold getPreviewStyle
    rw [if_neg hlen, previewFold_totals]
  · unfold getCodeStyle
    rw [if_neg hlen]
  · unfold getTableStyle
    rw [if_neg hlen, tableFold_totals]

/-- A concrete record used to witness `render_totals`. -/
def sampleInfo : ArchiveInfo :=
  { name := "n", size := 5, exts := ["a"], fileCount := 2, folderCount := 3 }

/-- Witness for `render_totals` on the singleton list `[sampleInfo]`. -/
theorem render_totals_witness :
    getPreviewStyle [sampleInfo]
      = String.intercalate "\n"
          ((previewFold [sampleInfo]).1
            ++ [previewDivider,
                totalsLine ([sampleInfo].map ArchiveInfo.size).sum
                  ([sampleInfo].map ArchiveInfo.fileCount).sum
                  ([sampleInfo].map ArchiveInfo.folderCount).sum]) ∧
    getCodeStyle [sampleInfo]
      = String.intercalate "\n"
          [codeQuoteStart, version, getPreviewStyle [sampleInfo], codeQuoteEnd] ∧
    getTableStyle [sampleInfo]
      = String.intercalate "\n"
          ((tableFold [sampleInfo]).1
            ++ [tableCounter ([sampleInfo].map ArchiveInfo.size).sum
                  ([sampleInfo].map ArchiveInfo.fileCount).sum
                  ([sampleInfo].map ArchiveInfo.folderCount).sum,
                "[/quote]"]) :=
  render_totals [sampleInfo] (by simp)

/-! ### Folder counting: distinct (depth, name) pairs -/

/-- The (depth, name) pairs one member contributes: its intermediate path
segments — indices 2 up to but excluding the last — provided its path has
more than 3 segments. -/
def folderDepthPairs (f : FileWithPath) : List (Nat × String) :=
  if (memberPaths f).length > 3 then
    (List.range' 2 ((memberPaths f).length - 3)).map (fun d => (d, (memberPaths f).getD d ""))
  else []

/-- All (depth, name) pairs recorded in a folder tree. -/
def treePairs (t : List (Nat × List String)) : List (Nat × String) :=
  t.flatMap (fun kv => kv.2.map (fun n => (kv.1, n)))

/-- Well-formedness of a folder tree: distinct depth keys, and a duplicate
free name set at each depth.  It holds for the empty tree and is preserved by
`addDepth`. -/
def treeWF (t : List (Nat × List String)) : Prop :=
  (t.map Prod.fst).Nodup ∧ ∀ kv ∈ t, kv.2.Nodup

theorem treePairs_nil : treePairs [] = [] := rfl

theorem treePairs_cons (kv : Nat × List String) (t : List (Nat × List String)) :
    treePairs (kv :: t) = kv.2.map (fun n => (kv.1, n)) ++ treePairs t := rfl

/-- `setAdd` preserves duplicate freedom. -/
theorem setAdd_nodup {l : List String} (x : String) (hl : l.Nodup) :
    (setAdd l x).Nodup := by
  unfold setAdd
  split_ifs with h
  · exact hl
  · simp [List.nodup_append, hl, h]

/-- A recorded pair's depth is one of the tree's keys. -/
theorem fst_of_mem_treePairs {t : List (Nat × List String)} {p : Nat × String}
    (h : p ∈ treePairs t) : p.1 ∈ t.map Prod.fst := by
  induction t with
  | nil => simp [treePairs] at h
  | cons kv rest ih =>
    rw [treePairs_cons, List.mem_append] at h
    rcases h with h | h
    · rcases List.mem_map.mp h with ⟨m, _, rfl⟩
      simp
    · simp [ih h]

/-- A well-formed tree records each (depth, name) pair at most once. -/
theorem treePairs_nodup {t : List (Nat × List String)} (h : treeWF t) :
    (treePairs t).Nodup := by
  induction t with
  | nil => simp [treePairs]
  | cons kv rest ih =>
    obtain ⟨hkeys, hvals⟩ := h
    rw [List.map_cons, List.nodup_cons] at hkeys
    rw [treePairs_cons, List.nodup_append]
    refine ⟨?_, ih ⟨hkeys.2, fun kv2 hkv2 => hvals kv2 (List.mem_cons_of_mem _ hkv2)⟩, ?_⟩
    · exact (hvals kv (List.mem_cons_self _ _)).map
        (fun a b hab => congrArg Prod.snd hab)
    · intro p hp hp2
      rcases List.mem_map.mp hp with ⟨m, _, rfl⟩
      exact hkeys.1 (fst_of_mem_treePairs hp2)

/-- Membership after `addDepth`: exactly the old pairs plus `(d, n)`. -/
theorem mem_treePairs_addDepth (t : List (Nat × List String)) (d : Nat) (n : String)
    (p : Nat × String) :
    p ∈ treePairs (addDepth t d n) ↔ p ∈ treePairs t ∨ p = (d, n) := by
  induction t with
  | nil => simp [addDepth, treePairs]
  | cons kv rest ih =>
    rw [addDepth]
    split_ifs with hkv
    · subst hkv
      rw [treePairs_cons, treePairs_cons, List.mem_append, List.mem_append]
      constructor
      · rintro (hmap | hrest)
        · rcases List.mem_map.mp hmap with ⟨m, hm, rfl⟩
          rcases mem_setAdd.mp hm with hm | rfl
          · exact Or.inl (Or.inl (List.mem_map.mpr ⟨m, hm, rfl⟩))
          · exact Or.inr rfl
        · exact Or.inl (Or.inr hrest)
      · rintro ((hmap | hrest) | rfl)
        · rcases List.mem_map.mp hmap with ⟨m, hm, rfl⟩
          exact Or.inl (List.mem_map.mpr ⟨m, mem_setAdd.mpr (Or.inl hm), rfl⟩)
        · exact Or.inr hrest
        · exact Or.inl (List.mem_map.mpr ⟨n, mem_setAdd.mpr (Or.inr rfl), rfl⟩)
    · rw [treePairs_cons, treePairs_cons, List.mem_append, List.mem_append, ih]
      tauto

/-- The keys after `addDepth`: unchanged when the depth is present, the depth
appended at the end otherwise. -/
theorem map_fst_addDepth (t : List (Nat × List String)) (d : Nat) (n : String) :
    (addDepth t d n).map Prod.fst
      = if d ∈ t.map Prod.fst then t.map Prod.fst else t.map Prod.fst ++ [d] := by
  induction t with
  | nil => simp [addDepth]
  | cons kv rest ih =>
    by_cases hkv : kv.1 = d
    · rw [addDepth, if_pos hkv, if_pos (by simp [List.mem_cons, hkv.symm])]
      simp
    · rw [addDepth, if_neg hkv, List.map_cons, List.map_cons, ih]
      have hne : ¬ (d = kv.1) := fun h => hkv h.symm
      by_cases hd : d ∈ rest.map Prod.fst
      · rw [if_pos hd, if_pos (by simp [List.mem_cons, hd])]
      · rw [if_neg hd, if_neg (by simp [List.mem_cons, hne, hd])]
        simp

/-- `addDepth` preserves tree well-formedness. -/
theorem treeWF_addDepth {t : List (Nat × List String)} (d : Nat) (n : String)
    (h : treeWF t) : treeWF (addDepth t d n) := by
  induction t with
  | nil =>
    exact ⟨by simp [addDepth], by simp [addDepth]⟩
  | cons kv rest ih =>
    obtain ⟨hkeys, hvals⟩ := h
    rw [List.map_cons, List.nodup_cons] at hkeys
    rw [addDepth]
    split_ifs with hkv
    · refine ⟨?_, ?_⟩
      · simpa using And.intro hkeys.1 hkeys.2
      · intro kv2 hkv2
        rcases List.mem_cons.mp hkv2 with rfl | hkv2
        · exact setAdd_nodup n (hvals kv (List.mem_cons_self _ _))
        · exact hvals kv2 (List.mem_cons_of_mem _ hkv2)
    · have hrest : treeWF rest :=
        ⟨hkeys.2, fun kv2 hkv2 => hvals kv2 (List.mem_cons_of_mem _ hkv2)⟩
      obtain ⟨ihkeys, ihvals⟩ := ih hrest
      refine ⟨?_, ?_⟩
      · rw [List.map_cons, List.nodup_cons]
        refine ⟨?_, ihkeys⟩
        intro hmem
        rw [map_fst_addDepth] at hmem
        by_cases hd : d ∈ rest.map Prod.fst
        · rw [if_pos hd] at hmem
          exact hkeys.1 hmem
        · rw [if_neg hd] at hmem
          rcases List.mem_append.mp hmem with hmem | hmem
          · exact hkeys.1 hmem
          · exact hkv (List.mem_singleton.mp hmem)
      · intro kv2 hkv2
        rcases List.mem_cons.mp hkv2 with rfl | hkv2
        · exact hvals kv2 (List.mem_cons_self _ _)
        · exact ihvals kv2 hkv2

/-- The recorded pairs grow by exactly one entry per tree key set. -/
theorem treePairs_length (t : List (Nat × List String)) :
    (treePairs t).length = (t.map (fun kv => kv.2.length)).sum := by
  induction t with
  | nil => rfl
  | cons kv rest ih => simp [treePairs_cons, ih]

/-- Folding `addDepth` over a pair list preserves well-formedness and unions
the pair list into the recorded pair set. -/
theorem foldl_addDepth_props (ps : List (Nat × String)) :
    ∀ t : List (Nat × List String), treeWF t →
      treeWF (ps.foldl (fun t p => addDepth t p.1 p.2) t) ∧
      (treePairs (ps.foldl (fun t p => addDepth t p.1 p.2) t)).toFinset
        = (treePairs t).toFinset ∪ ps.toFinset := by
  induction ps with
  | nil => intro t h; exact ⟨h, by simp⟩
  | cons p rest ih =>
    intro t h
    rw [List.foldl_cons]
    obtain ⟨ihwf, ihfin⟩ := ih (addDepth t p.1 p.2) (treeWF_addDepth _ _ h)
    refine ⟨ihwf, ?_⟩
    rw [ihfin]
    have hins : (treePairs (addDepth t p.1 p.2)).toFinset
        = insert p (treePairs t).toFinset := by
      ext q
      simp only [List.mem_toFinset, mem_treePairs_addDepth, Finset.mem_insert, Prod.mk.eta]
      tauto
    rw [hins]
    ext q
    simp only [Finset.mem_union, Finset.mem_insert, List.toFinset_cons, List.mem_toFinset]
    tauto

/-- The depth loop of `readFolder` is the `addDepth` fold over the member's
(depth, name) pair list. -/
theorem foldl_range_addDepth_eq (l : List Nat) (paths : List String)
    (t : List (Nat × List String)) :
    l.foldl (fun t d => addDepth t d (paths.getD d "")) t
      = (l.map (fun d => (d, paths.getD d ""))).foldl (fun t p => addDepth t p.1 p.2) t := by
  rw [List.foldl_map]

/-- One member's tree update preserves well-formedness and unions in its
(depth, name) pairs. -/
theorem treeUpdate_props (f : FileWithPath) (t : List (Nat × List String))
    (h : treeWF t) :
    treeWF (treeUpdate t f) ∧
    (treePairs (treeUpdate t f)).toFinset
      = (treePairs t).toFinset ∪ (folderDepthPairs f).toFinset := by
  unfold treeUpdate folderDepthPairs
  split_ifs with hlen
  · rw [foldl_range_addDepth_eq]
    exact foldl_addDepth_props _ t h
  · exact ⟨h, by simp⟩

/-- The member loop of `readFolder` accumulates the union of all members'
(depth, name) pairs into a well-formed tree. -/
theorem folderFold_tree_props (files : List FileWithPath) :
    ∀ t : List (Nat × List String), treeWF t →
      treeWF (files.foldl (fun t f => treeUpdate t f) t) ∧
      (treePairs (files.foldl (fun t f => treeUpdate t f) t)).toFinset
        = (treePairs t).toFinset ∪ (files.flatMap folderDepthPairs).toFinset := by
  induction files with
  | nil => intro t h; exact ⟨h, by simp⟩
  | cons f fs ih =>
    intro t h
    rw [List.foldl_cons]
    obtain ⟨h1, h2⟩ := treeUpdate_props f t h
    obtain ⟨ih1, ih2⟩ := ih _ h1
    refine ⟨ih1, ?_⟩
    rw [ih2, h2, List.flatMap_cons, List.toFinset_append, Finset.union_assoc]

/-- The tree component of the `readFolder` loop ignores the extension
component. -/
theorem folderStep_snd (files : List FileWithPath) :
    ∀ st : List String × List (Nat × List String),
      (files.foldl folderStep st).2 = files.foldl (fun t f => treeUpdate t f) st.2 := by
  induction files with
  | nil => intro st; rfl
  | cons f fs ih =>
    intro st
    rw [List.foldl_cons, List.foldl_cons, ih]
    rfl

/-- Claim C2: for every folder archive, `folderCount` is the number of
distinct (depth, name) pairs among intermediate path segments — the same name
at two depths counts twice, the same (depth, name) pair reached through
different members counts once. -/
theorem readFolder_folderCount (a : Archive) :
    (readFolder a).folderCount = (a.files.flatMap folderDepthPairs).toFinset.card := by
  have hwf : treeWF ([] : List (Nat × List String)) := ⟨by simp, by simp⟩
  obtain ⟨h1, h2⟩ := folderFold_tree_props a.files [] hwf
  have hsnd := folderStep_snd a.files ([], [])
  show (((a.files.foldl folderStep ([], [])).2).map (fun kv => kv.2.length)).sum = _
  rw [hsnd]
  rw [← treePairs_length, ← List.toFinset_card_of_nodup (treePairs_nodup h1), h2]
  simp [treePairs_nil]

/-! ### Grouping: partition and ordering -/

/-- The archive the first loop of `preprocess` creates for a `.zip`/`.rar`
entry, `none` for residual entries. -/
def zipRarArchiveOf (file : FileWithPath) : Option Archive :=
  if strEndsWith file.name ".zip" then
    some { name := file.name, size := file.size, type := ArchiveType.zip, files := [file] }
  else if strEndsWith file.name ".rar" then
    some { name := file.name, size := file.size, type := ArchiveType.rar, files := [file] }
  else none

/-- An entry `preprocess` keeps: named like an archive, or carrying a path
that starts with the separator. -/
def groupable (f : FileWithPath) : Bool :=
  strEndsWith f.name ".zip" || strEndsWith f.name ".rar" || hasValidPath f

/-- The first loop of `preprocess`: the zip/rar archives in input order beside
the residual bucket in input order. -/
theorem classifyStep_fold (files : List FileWithPath) :
    ∀ (A : List Archive) (O : List FileWithPath),
      files.foldl classifyStep (A, O)
        = (A ++ files.filterMap zipRarArchiveOf,
           O ++ files.filter
             (fun f => !(strEndsWith f.name ".zip") && !(strEndsWith f.name ".rar"))) := by
  induction files with
  | nil => intro A O; simp
  | cons f fs ih =>
    intro A O
    rw [List.foldl_cons]
    by_cases hz : strEndsWith f.name ".zip"
    · simp [classifyStep, zipRarArchiveOf, hz, ih, List.filterMap_cons, List.filter_cons]
    · by_cases hr : strEndsWith f.name ".rar"
      · simp [classifyStep, zipRarArchiveOf, hz, hr, ih, List.filterMap_cons, List.filter_cons]
      · simp [classifyStep, zipRarArchiveOf, hz, hr, ih, List.filterMap_cons, List.filter_cons]

/-- The zip/rar archives hold exactly the zip/rar entries, one each, in
order. -/
theorem flatMap_filterMap_zipRar (files : List FileWithPath) :
    (files.filterMap zipRarArchiveOf).flatMap Archive.files
      = files.filter (fun f => strEndsWith f.name ".zip" || strEndsWith f.name ".rar") := by
  induction files with
  | nil => rfl
  | cons f fs ih =>
    by_cases hz : strEndsWith f.name ".zip"
    · simp [zipRarArchiveOf, hz, List.filterMap_cons, List.filter_cons, ih]
    · by_cases hr : strEndsWith f.name ".rar"
      · simp [zipRarArchiveOf, hz, hr, List.filterMap_cons, List.filter_cons, ih]
      · simp [zipRarArchiveOf, hz, hr, List.filterMap_cons, List.filter_cons, ih]

/-- `addToFolder` adds exactly one occurrence of the pushed entry to the
map's collective values. -/
theorem addToFolder_flatMap_perm (m : List (String × List FileWithPath)) (k : String)
    (f : FileWithPath) :
    ((addToFolder m k f).flatMap (fun kv => kv.2)).Perm
      ((m.flatMap fun kv => kv.2) ++ [f]) := by
  induction m with
  | nil => simp [addToFolder]
  | cons kv rest ih =>
    rw [addToFolder]
    split_ifs with hk
    · simp only [List.flatMap_cons]
      rw [List.append_assoc, List.append_assoc]
      exact List.Perm.append_left kv.2 List.perm_append_comm
    · simp only [List.flatMap_cons]
      rw [List.append_assoc]
      exact List.Perm.append_left kv.2 ih

/-- The grouping loop's collective values are exactly the entries with a
usable path, each once. -/
theorem groupFold_flatMap_perm (l : List FileWithPath) :
    ∀ m : List (String × List FileWithPath),
      ((l.foldl groupStep m).flatMap (fun kv => kv.2)).Perm
        ((m.flatMap fun kv => kv.2) ++ l.filter hasValidPath) := by
  induction l with
  | nil => intro m; simp
  | cons f fs ih =>
    intro m
    rw [List.foldl_cons]
    by_cases hv : hasValidPath f
    · rw [show groupStep m f = addToFolder m (folderKey f) f from by simp [groupStep, hv]]
      rw [List.filter_cons, if_pos hv]
      refine (ih _).trans ?_
      refine (List.Perm.append_right _ (addToFolder_flatMap_perm m _ f)).trans ?_
      rw [List.append_assoc]
      exact List.Perm.refl _
    · rw [show groupStep m f = m from by simp [groupStep, hv]]
      rw [List.filter_cons, if_neg (by simp [hv])]
      exact ih m

/-- Splitting off the zip/rar entries and then the usable-path residual
entries is a permutation of filtering by `groupable`. -/
theorem zipRar_valid_filter_perm (files : List FileWithPath) :
    ((files.filter (fun f => strEndsWith f.name ".zip" || strEndsWith f.name ".rar"))
        ++ ((files.filter (fun f => !(strEndsWith f.name ".zip")
              && !(strEndsWith f.name ".rar"))).filter hasValidPath)).Perm
      (files.filter groupable) := by
  induction files with
  | nil => simp
  | cons f fs ih =>
    by_cases hz : strEndsWith f.name ".zip"
    · simp only [List.filter_cons]
      rw [if_pos (by simp [hz]), if_neg (by simp [hz]), if_pos (by simp [groupable, hz])]
      exact ih.cons f
    · by_cases hr : strEndsWith f.name ".rar"
      · simp only [List.filter_cons]
        rw [if_pos (by simp [hr]), if_neg (by simp [hz, hr]), if_pos (by simp [groupable, hr])]
        exact ih.cons f
      · by_cases hv : hasValidPath f
        · simp only [List.filter_cons]
          rw [if_neg (by simp [hz, hr]), if_pos (by simp [hz, hr]), List.filter_cons,
            if_pos hv, if_pos (by simp [groupable, hv])]
          exact List.perm_middle.trans (ih.cons f)
        · simp only [List.filter_cons]
          rw [if_neg (by simp [hz, hr]), if_pos (by simp [hz, hr]), List.filter_cons,
            if_neg (by simp [hv]), if_neg (by simp [groupable, hz, hr, hv])]
          exact ih

/-- Occurrences across all archives' member lists, counted via the flat
member list. -/
theorem count_flatMap_archives (l : List Archive) (e : FileWithPath) :
    (l.flatMap Archive.files).count e = (l.map (fun a => a.files.count e)).sum := by
  induction l with
  | nil => rfl
  | cons a rest ih => simp [List.flatMap_cons, List.count_append, ih]

/-- The members of all archives of `preprocess`, taken together, are a
permutation of the groupable input entries. -/
theorem preprocess_flatMap_perm (files : List FileWithPath) :
    ((preprocess files).flatMap Archive.files).Perm (files.filter groupable) := by
  unfold preprocess groupFolders
  rw [classifyStep_fold files [] []]
  simp only [List.nil_append]
  rw [List.flatMap_append, flatMap_filterMap_zipRar]
  have hmap :
      (((files.filter (fun f => !(strEndsWith f.name ".zip")
            && !(strEndsWith f.name ".rar"))).foldl groupStep []).map mkFolderArchive).flatMap
          Archive.files
        = ((files.filter (fun f => !(strEndsWith f.name ".zip")
            && !(strEndsWith f.name ".rar"))).foldl groupStep []).flatMap (fun kv => kv.2) := by
    rw [List.flatMap_map]
    rfl
  rw [hmap]
  have h2 := groupFold_flatMap_perm
    (files.filter (fun f => !(strEndsWith f.name ".zip") && !(strEndsWith f.name ".rar"))) []
  simp only [List.flatMap_nil, List.nil_append] at h2
  exact (List.Perm.append_left _ h2).trans (zipRar_valid_filter_perm files)

/-- Claim C3: grouping is a partition with multiplicity.  The members of the
returned archives are a permutation of the groupable input entries (those
named `.zip`/`.rar` or holding a path starting with the separator), and every
entry occurs across all archives' `files` exactly as often as it occurs among
the groupable inputs — so a groupable entry occurring once lands in exactly
one archive, a non-groupable entry in none, and nothing is duplicated. -/
theorem preprocess_partition (files : List FileWithPath) :
    ((preprocess files).flatMap Archive.files).Perm (files.filter groupable) ∧
    ∀ e : FileWithPath,
      ((preprocess files).map (fun a => a.files.count e)).sum
        = (files.filter groupable).count e := by
  have hperm := preprocess_flatMap_perm files
  refine ⟨hperm, fun e => ?_⟩
  rw [← count_flatMap_archives, hperm.count_eq]

/-- The keys after `addToFolder`: unchanged when the key is present, the key
appended at the end otherwise. -/
theorem map_fst_addToFolder (m : List (String × List FileWithPath)) (k : String)
    (f : FileWithPath) :
    (addToFolder m k f).map Prod.fst
      = if k ∈ m.map Prod.fst then m.map Prod.fst else m.map Prod.fst ++ [k] := by
  induction m with
  | nil => simp [addToFolder]
  | cons kv rest ih =>
    by_cases hkv : kv.1 = k
    · rw [addToFolder, if_pos hkv, if_pos (by simp [List.mem_cons, hkv.symm])]
      simp
    · rw [addToFolder, if_neg hkv, List.map_cons, List.map_cons, ih]
      have hne : ¬ (k = kv.1) := fun h => hkv h.symm
      by_cases hd : k ∈ rest.map Prod.fst
      · rw [if_pos hd, if_pos (by simp [List.mem_cons, hd])]
      · rw [if_neg hd, if_neg (by simp [List.mem_cons, hne, hd])]
        simp

/-- Modelled from the spec (§4.1 step 3): the distinct top-level folder names
of the groupable non-archive entries, in first-seen input order. -/
def specFirstSeenFolderNames (files : List FileWithPath) : List String :=
  files.foldl
    (fun acc f =>
      if strEndsWith f.name ".zip" || strEndsWith f.name ".rar" then acc
      else if hasValidPath f then
        (if folderKey f ∈ acc then acc else acc ++ [folderKey f])
      else acc) []

/-- The key order of the grouping loop is first-seen order of the member
folder names. -/
theorem groupFold_keys (l : List FileWithPath) :
    ∀ m : List (String × List FileWithPath),
      (l.foldl groupStep m).map Prod.fst
        = l.foldl
            (fun acc f =>
              if hasValidPath f then
                (if folderKey f ∈ acc then acc else acc ++ [folderKey f])
              else acc)
            (m.map Prod.fst) := by
  induction l with
  | nil => intro m; rfl
  | cons f fs ih =>
    intro m
    rw [List.foldl_cons, List.foldl_cons]
    by_cases hv : hasValidPath f
    · rw [show groupStep m f = addToFolder m (folderKey f) f from by simp [groupStep, hv]]
      rw [ih, map_fst_addToFolder, if_pos hv]
    · rw [show groupStep m f = m from by simp [groupStep, hv], ih, if_neg (by simp [hv])]

/-- Collecting first-seen folder names over the residual entries equals
collecting them over the whole input while skipping zip/rar names. -/
theorem specFirstSeen_filter (files : List FileWithPath) :
    ∀ acc : List String,
      (files.filter (fun f => !(strEndsWith f.name ".zip")
          && !(strEndsWith f.name ".rar"))).foldl
          (fun acc f =>
            if hasValidPath f then
              (if folderKey f ∈ acc then acc else acc ++ [folderKey f])
            else acc)
          acc
        = files.foldl
            (fun acc f =>
              if strEndsWith f.name ".zip" || strEndsWith f.name ".rar" then acc
              else if hasValidPath f then
                (if folderKey f ∈ acc then acc else acc ++ [folderKey f])
              else acc)
            acc := by
  induction files with
  | nil => intro acc; rfl
  | cons f fs ih =>
    intro acc
    by_cases hz : strEndsWith f.name ".zip"
    · rw [List.filter_cons, if_neg (by simp [hz]), List.foldl_cons, if_pos (by simp [hz])]
      exact ih acc
    · by_cases hr : strEndsWith f.name ".rar"
      · rw [List.filter_cons, if_neg (by simp [hz, hr]), List.foldl_cons,
          if_pos (by simp [hr])]
        exact ih acc
      · rw [List.filter_cons, if_pos (by simp [hz, hr]), List.foldl_cons, List.foldl_cons,
          if_neg (show ¬ ((strEndsWith f.name ".zip" || strEndsWith f.name ".rar") = true) by
            simp [hz, hr])]
        exact ih _

/-- Claim C9: `preprocess` returns the zip- and rar-type archives (one per
matching entry, in original input order) strictly before the folder-type
archives, whose names are the distinct top-level folder names in first-seen
input order — irrespective of how the input interleaved the kinds. -/
theorem preprocess_order (files : List FileWithPath) :
    preprocess files
      = files.filterMap zipRarArchiveOf
        ++ (groupFolders (files.filter (fun f => !(strEndsWith f.name ".zip")
              && !(strEndsWith f.name ".rar")))).map mkFolderArchive ∧
    (∀ a ∈ files.filterMap zipRarArchiveOf,
        a.type = ArchiveType.zip ∨ a.type = ArchiveType.rar) ∧
    (∀ a ∈ (groupFolders (files.filter (fun f => !(strEndsWith f.name ".zip")
          && !(strEndsWith f.name ".rar")))).map mkFolderArchive,
        a.type = ArchiveType.folder) ∧
    ((groupFolders (files.filter (fun f => !(strEndsWith f.name ".zip")
          && !(strEndsWith f.name ".rar")))).map mkFolderArchive).map Archive.name
      = specFirstSeenFolderNames files := by
  refine ⟨?_, ?_, ?_, ?_⟩
  · unfold preprocess groupFolders
    rw [classifyStep_fold files [] []]
    simp only [List.nil_append]
  · intro a ha
    rcases List.mem_filterMap.mp ha with ⟨f, _, hf⟩
    unfold zipRarArchiveOf at hf
    split_ifs at hf with h1 h2
    · cases hf
      exact Or.inl rfl
    · cases hf
      exact Or.inr rfl
  · intro a ha
    rcases List.mem_map.mp ha with ⟨kv, _, rfl⟩
    rfl
  · rw [List.map_map]
    have hcomp : (Archive.name ∘ mkFolderArchive)
        = (Prod.fst : String × List FileWithPath → String) := rfl
    rw [hcomp]
    unfold groupFolders
    rw [groupFold_keys]
    simp only [List.map_nil]
    exact specFirstSeen_filter files []

end Moelist
